import Mathlib

/-!
Verification of the signal-derivation pipeline of the moneyincrypto news
terminal (source: src/App.tsx).  The pipeline stages modelled here are the
text normalizer `cleanSummary`, the keyword classifier `classifyCategory`,
the news merger in `loadNews`, the price correlator in `loadCorrelatedMoves`,
the macro regime estimator in `loadMacro`, and the trade idea engine.

Modelling conventions: JS strings are Lean `String`s (operated on through
their `List Char` data where convenient); JS numbers are `ℚ`; absent JS
values are `Option`; the per-item `Math.random()` draws for sentiment,
impact and narrative edge are oracle function parameters, since no claim
constrains them.
-/

/-- JS `a || b` on an optional string: the fallback is used when the value
is absent or empty (both are falsy in JS). -/
def jsOr (a : Option String) (b : String) : String :=
  match a with
  | some s => if s = "" then b else s
  | none => b

/-- Models `String.prototype.toLowerCase` on a character.  All feed text in
the concrete scenarios is ASCII, where this agrees with JS. -/
def lowerChar (c : Char) : Char :=
  if 'A' ≤ c ∧ c ≤ 'Z' then Char.ofNat (c.toNat + 32) else c

/-- Lowercases a string, character by character. -/
def lowerStr (s : String) : String := String.mk (s.data.map lowerChar)

/-- Substring occurrence on character lists: does `needle` occur
contiguously inside the second argument?  Models `String.prototype.includes`. -/
def containsL (needle : List Char) : List Char → Bool
  | [] => needle.isEmpty
  | c :: t => needle.isPrefixOf (c :: t) || containsL needle t

/-- Models `hay.includes(sub)` in JS. -/
def strIncludes (hay sub : String) : Bool := containsL sub.data hay.data

/-- The ASCII part of the JS regex whitespace class `\s`
(space, tab, newline, carriage return, vertical tab, form feed). -/
def isWs (c : Char) : Bool :=
  c = ' ' || c = '\t' || c = '\n' || c = '\r' || c = '\x0b' || c = '\x0c'

/-! ### Text normalizer: `cleanSummary` (App.tsx lines 40-59, regex path)

The DOM branch of `cleanSummary` is unavailable outside a browser; the
portable regex fallback (lines 56-58) is the behaviour modelled:
`html.replace(/<[^>]+>/g, "").replace(/https?:\/\/\S+/g, "")
.replace(/\s+/g, " ").trim()` with the "No summary available." fallback
for falsy input or an empty result. -/

/-- Scans for the first `>` and returns the remainder after it. -/
def skipToGt : List Char → Option (List Char)
  | [] => none
  | c :: t => if c = '>' then some t else skipToGt t

/-- Attempts to match the regex tail `[^>]+>` at the head of the list:
at least one non-`>` character followed by a `>`.  Returns the remainder
after the match, or `none` when the tail does not match here. -/
def dropTag : List Char → Option (List Char)
  | [] => none
  | c :: t => if c = '>' then none else skipToGt t

theorem skipToGt_length {l r : List Char} (h : skipToGt l = some r) :
    r.length < l.length := by
  induction l with
  | nil => simp [skipToGt] at h
  | cons c t ih =>
    simp only [skipToGt] at h
    split at h
    · cases h; simp
    · exact Nat.lt_trans (ih h) (by simp)

theorem dropTag_length {l r : List Char} (h : dropTag l = some r) :
    r.length < l.length := by
  cases l with
  | nil => simp [dropTag] at h
  | cons c t =>
    simp only [dropTag] at h
    split at h
    · cases h
    · exact Nat.lt_trans (skipToGt_length h) (by simp)

/-- Global left-to-right erasure of the regex `<[^>]+>`, as performed by
`html.replace(/<[^>]+>/g, "")`: at each `<` the matcher consumes up to the
first following `>` provided at least one character stands between. -/
def stripTags : List Char → List Char
  | [] => []
  | c :: t =>
    match h : dropTag t with
    | some r => if c = '<' then stripTags r else c :: stripTags t
    | none => c :: stripTags t
termination_by l => l.length
decreasing_by
  · exact Nat.lt_trans (dropTag_length h) (by simp)
  · simp
  · simp

/-- The scheme literal `https://` as characters. -/
def httpsL : List Char := ['h', 't', 't', 'p', 's', ':', '/', '/']

/-- The scheme literal `http://` as characters. -/
def httpL : List Char := ['h', 't', 't', 'p', ':', '/', '/']

/-- Matches the regex part `https?:\/\/` at the head of the list (greedy on
the optional `s`), returning the remainder after the scheme. -/
def schemeSplit (l : List Char) : Option (List Char) :=
  if httpsL.isPrefixOf l then some (l.drop 8)
  else if httpL.isPrefixOf l then some (l.drop 7)
  else none

theorem dropWhile_length_le {α : Type} (p : α → Bool) (l : List α) :
    (l.dropWhile p).length ≤ l.length := by
  induction l with
  | nil => simp
  | cons c t ih =>
    by_cases h : p c
    · simpa [List.dropWhile, h] using Nat.le_trans ih (by simp)
    · simp [List.dropWhile, h]

theorem isPrefixOf_eq {a b : List Char} : a.isPrefixOf b = true ↔ a <+: b :=
  List.isPrefixOf_iff_prefix

theorem nilPrefixOf {l : List Char} : [] <+: l :=
  List.nil_prefix

theorem schemeSplit_eq {l r : List Char} (h : schemeSplit l = some r) :
    l = httpsL ++ r ∨ l = httpL ++ r := by
  unfold schemeSplit at h
  split at h
  case isTrue hp =>
    cases h
    left
    obtain ⟨t, ht⟩ := isPrefixOf_eq.mp hp
    subst ht
    simp [httpsL]
  case isFalse =>
    split at h
    case isTrue hp =>
      cases h
      right
      obtain ⟨t, ht⟩ := isPrefixOf_eq.mp hp
      subst ht
      simp [httpL]
    case isFalse => cases h

/-- Attempts the regex `https?:\/\/\S+` at the head of the list: the scheme
followed by at least one non-whitespace character; the `\S+` is greedy so
the whole following non-whitespace run is consumed.  Returns the remainder
after the match. -/
def urlAt (l : List Char) : Option (List Char) :=
  match schemeSplit l with
  | none => none
  | some [] => none
  | some (c :: t) =>
    if isWs c then none else some ((c :: t).dropWhile (fun x => !isWs x))

/-- Unpacks a successful match of `urlAt`. -/
theorem urlAt_some_elim {l r : List Char} (h : urlAt l = some r) :
    ∃ c t, schemeSplit l = some (c :: t) ∧ isWs c = false ∧
      r = (c :: t).dropWhile (fun x => !isWs x) := by
  unfold urlAt at h
  split at h
  · cases h
  · cases h
  case _ c t heq =>
    split at h
    · cases h
    case isFalse hws =>
      cases h
      exact ⟨c, t, heq, by simpa using hws, rfl⟩

theorem urlAt_length {l r : List Char} (h : urlAt l = some r) :
    r.length < l.length := by
  obtain ⟨c, t, hs, -, rfl⟩ := urlAt_some_elim h
  have h1 : ((c :: t).dropWhile (fun x => !isWs x)).length ≤ t.length + 1 := by
    simpa using dropWhile_length_le (fun x => !isWs x) (c :: t)
  rcases schemeSplit_eq hs with he | he <;> subst he <;>
    simp [httpsL, httpL] <;> omega

/-- Global left-to-right erasure of the regex `https?:\/\/\S+`, as performed
by `.replace(/https?:\/\/\S+/g, "")`. -/
def stripUrls : List Char → List Char
  | [] => []
  | c :: t =>
    match h : urlAt (c :: t) with
    | some r => stripUrls r
    | none => c :: stripUrls t
termination_by l => l.length
decreasing_by
  · exact urlAt_length h
  · simp

/-- Collapses every maximal whitespace run to a single space, as performed
by `.replace(/\s+/g, " ")`. -/
def collapseWs : List Char → List Char
  | [] => []
  | c :: t =>
    if isWs c then ' ' :: collapseWs (t.dropWhile isWs)
    else c :: collapseWs t
termination_by l => l.length
decreasing_by
  · exact Nat.lt_succ_of_le (dropWhile_length_le isWs t)
  · simp

/-- Removes whitespace from both ends, as performed by `.trim()`. -/
def trimWs (l : List Char) : List Char :=
  ((l.dropWhile isWs).reverse.dropWhile isWs).reverse

/-- The fixed fallback summary string. -/
def noSummary : String := "No summary available."

/-- The text normalizer `cleanSummary` (App.tsx lines 40-59): falsy input
gives the fallback; otherwise tags are stripped, URLs removed, whitespace
collapsed and trimmed, with the fallback again replacing an empty result. -/
def cleanSummary (html : String) : String :=
  if html = "" then noSummary
  else
    let t := trimWs (collapseWs (stripUrls (stripTags html.data)))
    if t = [] then noSummary else String.mk t

/-! ### Category classifier: `classifyCategory` (App.tsx lines 62-73) -/

/-- The keyword classifier, an exact transcription of `classifyCategory`:
case-insensitive substring tests in a fixed priority order, first match
wins, empty text classifies as General. -/
def classifyCategory (text : String) : String :=
  if text = "" then "General"
  else
    let t := lowerStr text
    if strIncludes t "ai" || strIncludes t "machine learning" || strIncludes t "nvidia" then "AI"
    else if strIncludes t "layer 2" || strIncludes t "scaling" || strIncludes t "l2" || strIncludes t "rollup" then "Layer2"
    else if strIncludes t "staking" || strIncludes t "liquid staking" || strIncludes t "restaking" then "LST"
    else if strIncludes t "nft" || strIncludes t "gaming" || strIncludes t "metaverse" then "Gaming"
    else if strIncludes t "defi" || strIncludes t "dex" || strIncludes t "uniswap" || strIncludes t "aave" then "DeFi"
    else if strIncludes t "solana" || strIncludes t "sol" then "Solana"
    else if strIncludes t "stablecoin" || strIncludes t "usdt" || strIncludes t "usdc" then "Stable"
    else "General"

/-- Evaluation helper: the fallback summary passes through `cleanSummary`
unchanged (it has no markup, URL or whitespace run). -/
theorem cleanSummary_fallback_eval :
    cleanSummary "No summary available." = "No summary available." := by
  simp [cleanSummary, stripTags, stripUrls, dropTag, skipToGt, urlAt, schemeSplit,
    httpsL, httpL, collapseWs, trimWs, isWs, noSummary, List.dropWhile]

/-! ### News normalizer: `loadNews` (App.tsx lines 102-152) -/

/-- One raw RSS item of a feed payload (§6 of the spec): every field the
merge reads is optional in the incoming JSON. -/
structure RawItem where
  title : Option String
  description : Option String
  pubDate : Option String
  guid : Option String
  link : Option String
deriving DecidableEq

/-- The decoded payload of one provider; `items` is `none` when the JSON has no
`items` array (line 123: `res && Array.isArray(res.items) ? res.items : []`). -/
structure FeedPayload where
  items : Option (List RawItem)
deriving DecidableEq

/-- The provider names of `EXCHANGE_NEWS_ENDPOINTS`, in declaration order
(lines 9-30). -/
def endpointNames : List String :=
  ["Binance", "Bybit", "OKX", "Cointelegraph", "Coindesk"]

/-- `EXCHANGE_NEWS_ENDPOINTS[i].name`; the app always indexes in bounds
because the flat-map index is below the number of fetch results. -/
def nameAt (i : Nat) : String := endpointNames.getD i ""

/-- The sentiment enumeration of line 117. -/
def sentimentsList : List String := ["Bullish", "Bearish", "Neutral", "Cautious"]

/-- The impact enumeration of line 118. -/
def impactsList : List String := ["High", "Medium", "Low"]

/-- The derived news item model: the object literal of lines 129-140. -/
structure NewsItem where
  id : String
  title : String
  source : String
  timeAgo : String
  impact : String
  sentiment : String
  priceMove : String
  category : String
  summary : String
  tags : List String
deriving DecidableEq

/-- Line 130: `item.guid || item.link || dollar-brace-template of
ENDPOINTS[i].name, dash, title`. -/
def rawItemId (name : String) (it : RawItem) : String :=
  jsOr it.guid (jsOr it.link (name ++ "-" ++ jsOr it.title "Untitled"))

/-- Builds one `NewsItem` from a raw item (lines 124-141).  `sent` and
`imp` are the two uniform random draws for this item, passed in as the
indices `Math.floor(Math.random()*length)` into the two enumerations. -/
def mkNewsItem (name : String) (sent : Fin 4) (imp : Fin 3) (it : RawItem) : NewsItem :=
  let summary := cleanSummary (jsOr it.description "No summary available.")
  let title := jsOr it.title "Untitled"
  let category := classifyCategory (title ++ " " ++ summary)
  { id := rawItemId name it
    title := title
    source := name
    timeAgo := jsOr it.pubDate ""
    impact := impactsList.get ⟨imp.1, imp.2⟩
    sentiment := sentimentsList.get ⟨sent.1, sent.2⟩
    priceMove := "N/A"
    category := category
    summary := summary
    tags := [name, category] }

/-- The news merge of `loadNews` (lines 120-143): drop failed fetches
(`filter(Boolean)` over the per-endpoint results), flat-map each surviving
items of each surviving payload to the NewsItem form — looking the provider name up by the index
`i` in the FILTERED array, exactly as the source does — and cap the merged
list at 60.  `results` is parallel to `endpointNames` in the app. -/
def mergedNews (sOr : Nat → Nat → Fin 4) (iOr : Nat → Nat → Fin 3)
    (results : List (Option FeedPayload)) : List NewsItem :=
  (((results.filterMap id).enum).flatMap fun p =>
    ((p.2.items.getD []).enum).map fun q =>
      mkNewsItem (nameAt p.1) (sOr p.1 q.1) (iOr p.1 q.1) q.2).take 60

/-- The ids `mergedNews` computes, read off directly from the raw payloads:
one id per surviving raw item, in order, no deduplication, capped at 60. -/
def mergedIds (results : List (Option FeedPayload)) : List String :=
  (((results.filterMap id).enum).flatMap fun p =>
    (p.2.items.getD []).map fun it => rawItemId (nameAt p.1) it).take 60

/-- C1: the claim is the intent of the spec, and the code has an index bug.
With the Binance fetch failed (a `null` placeholder) and the Bybit fetch
returning one item, the surviving item does appear, but its `source` is
"Binance", not "Bybit": after `filter(Boolean)` the flat-map index `i` of
line 122 no longer lines up with `EXCHANGE_NEWS_ENDPOINTS[i]` (lines 130,
132, 139), so every item after a failed fetch is attributed to the wrong
provider. -/
theorem mergedNews_misattributes_source :
    ((mergedNews (fun _ _ => 0) (fun _ _ => 0)
        [none, some ⟨some [⟨some "T", none, none, some "g", none⟩]⟩, none, none, none]).map
      fun n => n.source) = ["Binance"] ∧ nameAt 1 = "Bybit" := by
  constructor
  · simp [mergedNews, mkNewsItem, nameAt, endpointNames]
  · rfl

/-- The Binance payload of the C2 scenario: one item titled
"Binance Lists New AI Token", no other fields set. -/
def binancePayloadC2 : FeedPayload :=
  ⟨some [⟨some "Binance Lists New AI Token", none, none, none, none⟩]⟩

/-- The Cointelegraph payload of the C2 scenario: one item titled
"Bitcoin breaks key level", no other fields set. -/
def cointPayloadC2 : FeedPayload :=
  ⟨some [⟨some "Bitcoin breaks key level", none, none, none, none⟩]⟩

/-- The C2 scenario input: exactly the Binance and Cointelegraph payloads
survive (the app always fetches all five endpoints; the other three are
failed placeholders here). -/
def resultsC2 : List (Option FeedPayload) :=
  [some binancePayloadC2, none, none, some cointPayloadC2, none]

/-- The merged list of the C2 scenario (the random draws are irrelevant to
it and fixed to 0). -/
def mergedC2 : List NewsItem := mergedNews (fun _ _ => 0) (fun _ _ => 0) resultsC2

/-- C2 counterexample: in the two-payload scenario the category of the SECOND item is "AI", not "General" as the claim states.  The missing
description falls back to "No summary available." (line 125), the
classifier input is title plus that summary (line 127), and
"available".includes("ai") holds, so the very first keyword rule fires. -/
theorem scenario_second_item_not_general :
    (mergedC2.map fun n => n.category) = ["AI", "AI"] ∧ ("AI" : String) ≠ "General" := by
  constructor
  · simp [mergedC2, resultsC2, binancePayloadC2, cointPayloadC2, mergedNews, mkNewsItem,
      List.enum, List.enumFrom, jsOr, cleanSummary_fallback_eval, classifyCategory,
      lowerStr, lowerChar, strIncludes, containsL, List.isPrefixOf, String.data_append]
  · decide

/-- C2 amended: the merged list of the scenario has exactly 2 items, the first
has category AI, and the second ALSO has category AI (not General): any
item without a description inherits the fallback summary
"No summary available.", whose substring "ai" (inside "available") fires
the first classifier rule. -/
theorem scenario_two_payloads_categories :
    mergedC2.length = 2 ∧ (mergedC2.map fun n => n.category) = ["AI", "AI"] := by
  constructor
  · simp [mergedC2, resultsC2, binancePayloadC2, cointPayloadC2, mergedNews, mkNewsItem,
      List.enum, List.enumFrom]
  · simp [mergedC2, resultsC2, binancePayloadC2, cointPayloadC2, mergedNews, mkNewsItem,
      List.enum, List.enumFrom, jsOr, cleanSummary_fallback_eval, classifyCategory,
      lowerStr, lowerChar, strIncludes, containsL, List.isPrefixOf, String.data_append]

/-- C3 counterexample: a single payload whose two raw items carry the same
guid yields a merged list with TWO items of identical id — ids are not
unique within a derivation cycle and no last-write-wins collapse happens. -/
theorem merged_ids_can_collide :
    ((mergedNews (fun _ _ => 0) (fun _ _ => 0)
        [some ⟨some [⟨some "A", none, none, some "dup", none⟩,
                     ⟨some "B", none, none, some "dup", none⟩]⟩, none, none, none, none]).map
      fun n => n.id) = ["dup", "dup"] := by
  simp [mergedNews, mkNewsItem, rawItemId, jsOr, List.enum, List.enumFrom]

theorem enumFrom_map_snd_comp {α β : Type} (f : α → β) :
    ∀ (n : Nat) (l : List α), ((List.enumFrom n l).map fun q => f q.2) = l.map f := by
  intro n l
  induction l generalizing n with
  | nil => simp
  | cons c t ih => simp [List.enumFrom, ih]

/-- C3 amended: the merge does not enforce id uniqueness.  Every surviving
raw item contributes exactly one `NewsItem` whose id is its computed id
(guid, else link, else provider-name plus title), colliding ids and all;
the output ids are exactly `mergedIds`, the per-item ids in order, capped
at 60. -/
theorem mergedNews_ids_no_dedup (sOr : Nat → Nat → Fin 4) (iOr : Nat → Nat → Fin 3)
    (results : List (Option FeedPayload)) :
    ((mergedNews sOr iOr results).map fun n => n.id) = mergedIds results := by
  unfold mergedNews mergedIds
  rw [List.map_take]
  congr 1
  rw [List.map_flatMap]
  apply List.flatMap_congr
  intro p _
  rw [List.map_map]
  have h1 : ((fun n => n.id) ∘ fun q : Nat × RawItem =>
      mkNewsItem (nameAt p.1) (sOr p.1 q.1) (iOr p.1 q.1) q.2) =
      fun q : Nat × RawItem => rawItemId (nameAt p.1) q.2 := by
    funext q
    rfl
  rw [h1]
  rw [List.enum]
  exact enumFrom_map_snd_comp (rawItemId (nameAt p.1)) 0 (p.2.items.getD [])

/-! ### Macro regime estimator: `loadMacro` (App.tsx lines 190-254) -/

/-- Statistics of one reference coin from the price endpoint; either figure
can be missing from the response. -/
structure CoinStat where
  usd_24h_change : Option ℚ
  usd_24h_vol : Option ℚ
deriving DecidableEq

/-- The regime snapshot stored by `setMacro` (line 247). -/
structure MacroSnapshot where
  trendLabel : String
  trendDesc : String
  volaLabel : String
  volaDesc : String
  liqLabel : String
  liqDesc : String
deriving DecidableEq

/-- The macro regime computation of `loadMacro` (lines 198-247):
`Number(x || 0)` turns a missing figure into 0, `avgChg` is the mean of the
two 24h changes, and the three labels come from the if/else chains of lines
204-218, 224-232 and 234-245, first match wins. -/
def loadMacro (btc eth : CoinStat) : MacroSnapshot :=
  let btcChg := btc.usd_24h_change.getD 0
  let ethChg := eth.usd_24h_change.getD 0
  let avgChg := (btcChg + ethChg) / 2
  let trend : String × String :=
    if avgChg > 3 then ("Strong Bull", "BTC/ETH show strong upside over the last 24h.")
    else if avgChg > 1 then ("Mild Bull", "Upside bias with modest 24h gains.")
    else if avgChg < -3 then ("Strong Bear", "Heavy downside pressure in majors over the last 24h.")
    else if avgChg < -1 then ("Mild Bear", "Downside bias with controlled drawdown.")
    else ("Sideways", "Major pairs trade flat on the day.")
  let btcVol := btc.usd_24h_vol.getD 0
  let ethVol := eth.usd_24h_vol.getD 0
  let totalVol := btcVol + ethVol
  let vola : String × String :=
    if |avgChg| > 4 then ("High Stress", "Large 24h moves imply stressed volatility conditions.")
    else if |avgChg| > 2 then ("Elevated", "Realised volatility is elevated vs. typical sessions.")
    else ("Calm", "24h realised volatility is subdued in majors.")
  let liq : String × String :=
    if totalVol > 50000000000 then ("Deep", "Liquidity conditions are strong across BTC & ETH.")
    else if totalVol > 20000000000 then ("Normal", "Liquidity looks in line with recent averages.")
    else if totalVol > 0 then ("Thinner", "Volumes are lighter than usual, watch for slippage.")
    else ("Unknown", "Awaiting volume data.")
  ⟨trend.1, trend.2, vola.1, vola.2, liq.1, liq.2⟩

/-- C6 spec-side trend rule, written from the words of the claim (first match
wins in the stated order). -/
def specTrend (avg : ℚ) : String :=
  if avg > 3 then "Strong Bull"
  else if avg > 1 then "Mild Bull"
  else if avg < -3 then "Strong Bear"
  else if avg < -1 then "Mild Bear"
  else "Sideways"

/-- C6 spec-side volatility rule on the absolute average change. -/
def specVola (avg : ℚ) : String :=
  if |avg| > 4 then "High Stress" else if |avg| > 2 then "Elevated" else "Calm"

/-- C6 spec-side liquidity rule on the summed volume. -/
def specLiq (totalVol : ℚ) : String :=
  if totalVol > 50000000000 then "Deep"
  else if totalVol > 20000000000 then "Normal"
  else if totalVol > 0 then "Thinner"
  else "Unknown"

/-- C6: for all inputs (with missing figures read as 0) the three labels of
`loadMacro` agree with the threshold rules of the claim, and fully missing
inputs degrade to Sideways, Calm and Unknown. -/
theorem loadMacro_matches_spec (btc eth : CoinStat) :
    (loadMacro btc eth).trendLabel =
        specTrend ((btc.usd_24h_change.getD 0 + eth.usd_24h_change.getD 0) / 2) ∧
      (loadMacro btc eth).volaLabel =
        specVola ((btc.usd_24h_change.getD 0 + eth.usd_24h_change.getD 0) / 2) ∧
      (loadMacro btc eth).liqLabel =
        specLiq (btc.usd_24h_vol.getD 0 + eth.usd_24h_vol.getD 0) ∧
      (loadMacro ⟨none, none⟩ ⟨none, none⟩).trendLabel = "Sideways" ∧
      (loadMacro ⟨none, none⟩ ⟨none, none⟩).volaLabel = "Calm" ∧
      (loadMacro ⟨none, none⟩ ⟨none, none⟩).liqLabel = "Unknown" := by
  refine ⟨?_, ?_, ?_, ?_, ?_, ?_⟩ <;>
    first
      | (simp only [loadMacro, specTrend, specVola, specLiq]
         split_ifs <;> rfl)
      | norm_num [loadMacro]

/-- C4 counterexample: with both reference changes exactly 3 the average
change is exactly 3.0 and `loadMacro` labels the trend "Mild Bull", not
"Sideways": the strict `>3` rule fails, but control then falls to the `>1`
rule, which matches. -/
theorem trend_at_three_not_sideways :
    (loadMacro ⟨some 3, none⟩ ⟨some 3, none⟩).trendLabel = "Mild Bull" ∧
      ("Mild Bull" : String) ≠ "Sideways" := by
  constructor
  · norm_num [loadMacro]
  · decide

/-- C4 amended: the estimator is boundary-exact at the trend threshold in
the following sense: an average change of exactly 3.0 yields MILD BULL
(Strong Bull indeed needs strictly more than 3, but the `>1` rule then
matches, so the label is not Sideways), while 3.01 yields Strong Bull. -/
theorem trend_boundary_amended (btc eth : CoinStat) :
    ((btc.usd_24h_change.getD 0 + eth.usd_24h_change.getD 0) / 2 = 3 →
      (loadMacro btc eth).trendLabel = "Mild Bull") ∧
    ((btc.usd_24h_change.getD 0 + eth.usd_24h_change.getD 0) / 2 = 301 / 100 →
      (loadMacro btc eth).trendLabel = "Strong Bull") := by
  constructor <;> intro h <;> simp only [loadMacro] <;> rw [h] <;> norm_num

/-- Witness for the amended C4 theorem at concrete inputs 3 and 3.01. -/
theorem trend_boundary_amended_witness :
    (loadMacro ⟨some 3, none⟩ ⟨some 3, none⟩).trendLabel = "Mild Bull" ∧
      (loadMacro ⟨some (301 / 100), none⟩ ⟨some (301 / 100), none⟩).trendLabel =
        "Strong Bull" :=
  ⟨(trend_boundary_amended ⟨some 3, none⟩ ⟨some 3, none⟩).1 (by simp),
   (trend_boundary_amended ⟨some (301 / 100), none⟩ ⟨some (301 / 100), none⟩).2 (by simp)⟩

/-! ### Asset correlator: `loadCorrelatedMoves` (App.tsx lines 154-188) -/

/-- The static category-to-asset table `CATEGORY_ASSET_MAP` (lines 75-84). -/
def categoryAssetMap : List (String × String) :=
  [("AI", "render-token"), ("Layer2", "matic-network"), ("LST", "lido-dao"),
   ("Gaming", "immutable-x"), ("DeFi", "uniswap"), ("Solana", "solana"),
   ("Stable", "tether"), ("General", "bitcoin")]

/-- Line 172: `CATEGORY_ASSET_MAP[item.category] || CATEGORY_ASSET_MAP.General`,
the General entry being "bitcoin". -/
def assetFor (category : String) : String :=
  (categoryAssetMap.lookup category).getD "bitcoin"

/-- The entry of one asset in the CoinGecko simple-price response; either field
can be missing or non-numeric. -/
structure PriceInfo where
  usd : Option ℚ
  usd_24h_change : Option ℚ
deriving DecidableEq

/-- One decimal digit rendered as a character. -/
def digitChar (d : Nat) : Char := Char.ofNat (48 + d % 10)

/-- JS `x.toFixed(2)` for non-negative x: per the ES spec, the integer n
minimising the distance of n/100 to x (larger n on ties, hence the
half-up floor), rendered with exactly two fraction digits. -/
def toFixed2Core (x : ℚ) : List Char :=
  let n := (Int.floor (x * 100 + 1 / 2)).toNat
  (Nat.repr (n / 100)).data ++ '.' :: [digitChar (n / 10 % 10), digitChar (n % 10)]

/-- JS `x.toFixed(2)`: negative x formats its absolute value behind a
minus sign. -/
def toFixed2 (x : ℚ) : List Char :=
  if x < 0 then '-' :: toFixed2Core (-x) else toFixed2Core x

/-- Line 177: `(pct > 0 ? "+" : "") + pct.toFixed(2) + "%"`. -/
def fmtPct (pct : ℚ) : String :=
  String.mk ((if 0 < pct then ['+'] else []) ++ toFixed2 pct ++ ['%'])

/-- The per-item price enrichment of `loadCorrelatedMoves` (lines 171-179):
look up the representative asset of the category of the item in the snapshot; a
missing asset entry or missing/non-numeric change figure yields the "N/A"
sentinel, otherwise the formatted change; both branches copy the item and
replace only `priceMove`. -/
def correlateItem (data : String → Option PriceInfo) (item : NewsItem) : NewsItem :=
  match data (assetFor item.category) with
  | none => { item with priceMove := "N/A" }
  | some info =>
    match info.usd_24h_change with
    | none => { item with priceMove := "N/A" }
    | some pct => { item with priceMove := fmtPct pct }

/-- C9: price enrichment changes nothing but `priceMove`: every other field
of the output item equals that of the input item. -/
theorem correlateItem_frame (data : String → Option PriceInfo) (item : NewsItem) :
    (correlateItem data item).id = item.id ∧
      (correlateItem data item).title = item.title ∧
      (correlateItem data item).source = item.source ∧
      (correlateItem data item).timeAgo = item.timeAgo ∧
      (correlateItem data item).impact = item.impact ∧
      (correlateItem data item).sentiment = item.sentiment ∧
      (correlateItem data item).category = item.category ∧
      (correlateItem data item).summary = item.summary ∧
      (correlateItem data item).tags = item.tags := by
  unfold correlateItem
  cases data (assetFor item.category) with
  | none => simp
  | some info => cases h : info.usd_24h_change <;> simp [h]

/-- A price snapshot carrying a zero 24h change for bitcoin. -/
def zeroChangeData : String → Option PriceInfo :=
  fun t => if t = "bitcoin" then some ⟨some 87420, some 0⟩ else none

/-- A General-category item for exercising the correlator. -/
def generalItemC8 : NewsItem :=
  ⟨"id-1", "t", "Binance", "", "High", "Neutral", "N/A", "General", "s", []⟩

/-- Evaluation helper: zero formats as an unsigned "0.00%". -/
theorem fmtPct_zero : fmtPct 0 = "0.00%" := by
  have h1 : (Int.floor ((2 : ℚ)⁻¹)).toNat = 0 := by norm_num
  simp [fmtPct, toFixed2, toFixed2Core, h1, digitChar]
  decide

/-- C8 counterexample: a present 24h change of exactly 0 is formatted as
"0.00%", whose first character is the digit 0 — no explicit sign — because
the `+` prefix is added only for strictly positive changes and `toFixed`
emits no sign for zero. -/
theorem priceMove_zero_has_no_sign :
    (correlateItem zeroChangeData generalItemC8).priceMove = "0.00%" ∧
      "0.00%".data.head? = some '0' ∧ ('0' : Char) ≠ '+' ∧ ('0' : Char) ≠ '-' := by
  refine ⟨?_, by decide, by decide, by decide⟩
  simp [correlateItem, zeroChangeData, generalItemC8, assetFor, categoryAssetMap,
    List.lookup, fmtPct_zero]

/-- C8 amended: `priceMovePct` is the "N/A" sentinel exactly in the missing
cases, and otherwise the change formatted to two decimals where a `+` sign
prefixes strictly positive changes, a `-` sign prefixes strictly negative
ones, and a change of exactly zero carries no sign ("0.00%"). -/
theorem correlateItem_priceMove_amended (data : String → Option PriceInfo)
    (item : NewsItem) :
    ((data (assetFor item.category) = none ∨
        ∃ info, data (assetFor item.category) = some info ∧ info.usd_24h_change = none) →
      (correlateItem data item).priceMove = "N/A") ∧
    (∀ info pct, data (assetFor item.category) = some info →
      info.usd_24h_change = some pct →
      (correlateItem data item).priceMove = fmtPct pct ∧
        (0 < pct → (fmtPct pct).data.head? = some '+') ∧
        (pct < 0 → (fmtPct pct).data.head? = some '-') ∧
        (pct = 0 → fmtPct pct = "0.00%") ∧
        ∃ intPart d1 d2, (fmtPct pct).data = intPart ++ ['.', d1, d2, '%'] ∧
          d1.isDigit = true ∧ d2.isDigit = true) := by
  constructor
  · rintro (h | ⟨info, h, hc⟩)
    · simp [correlateItem, h]
    · simp [correlateItem, h, hc]
  · intro info pct h hc
    refine ⟨by simp [correlateItem, h, hc], ?_, ?_, ?_, ?_⟩
    · intro hp
      simp [fmtPct, hp]
    · intro hn
      simp [fmtPct, toFixed2, hn, not_lt_of_lt hn]
    · intro h0
      subst h0
      exact fmtPct_zero
    · refine ⟨(if 0 < pct then ['+'] else []) ++
        (if pct < 0 then ['-'] else []) ++
        (Nat.repr ((Int.floor (|pct| * 100 + 1 / 2)).toNat / 100)).data,
        digitChar ((Int.floor (|pct| * 100 + 1 / 2)).toNat / 10 % 10),
        digitChar ((Int.floor (|pct| * 100 + 1 / 2)).toNat % 10), ?_, ?_, ?_⟩
      · by_cases hn : pct < 0
        · simp [fmtPct, toFixed2, toFixed2Core, hn, not_lt_of_lt hn, abs_of_neg hn]
        · simp [fmtPct, toFixed2, toFixed2Core, hn, abs_of_nonneg (not_lt.mp hn)]
      · have : (Int.floor (|pct| * 100 + 1 / 2)).toNat / 10 % 10 < 10 := Nat.mod_lt _ (by norm_num)
        unfold digitChar
        interval_cases h : ((Int.floor (|pct| * 100 + 1 / 2)).toNat / 10 % 10) <;> decide
      · have : (Int.floor (|pct| * 100 + 1 / 2)).toNat % 10 < 10 := Nat.mod_lt _ (by norm_num)
        unfold digitChar
        interval_cases h : ((Int.floor (|pct| * 100 + 1 / 2)).toNat % 10) <;> decide

/-- A price snapshot carrying a +1.5 change for bitcoin. -/
def posChangeData : String → Option PriceInfo :=
  fun t => if t = "bitcoin" then some ⟨some 87420, some (3 / 2)⟩ else none

/-- Witness for the amended C8 theorem: a missing snapshot gives "N/A", and
a +1.5 change gives the formatted value with a leading plus. -/
theorem correlateItem_priceMove_amended_witness :
    (correlateItem (fun _ => none) generalItemC8).priceMove = "N/A" ∧
      (correlateItem posChangeData generalItemC8).priceMove = fmtPct (3 / 2) ∧
      (fmtPct (3 / 2)).data.head? = some '+' :=
  ⟨(correlateItem_priceMove_amended (fun _ => none) generalItemC8).1 (Or.inl rfl),
   ((correlateItem_priceMove_amended posChangeData generalItemC8).2
      ⟨some 87420, some (3 / 2)⟩ (3 / 2) rfl rfl).1,
   (((correlateItem_priceMove_amended posChangeData generalItemC8).2
      ⟨some 87420, some (3 / 2)⟩ (3 / 2) rfl rfl).2.1) (by simp)⟩

/-! ### Trade idea engine (App.tsx lines 256-368)

The `useEffect` body runs only for a non-empty news list and recomputes
the idea list from scratch.  The `Math.random()` edge of the narrative
ideas is an oracle parameter `edgeOr`. -/

/-- One trade idea: the object literals pushed onto `ideas`. -/
structure TradeIdea where
  id : String
  tag : String
  category : String
  edge : String
  conviction : String
  title : String
  summary : String
  horizon : String
  risk : String
deriving DecidableEq

/-- Lines 260-261: the first 50 items, restricted to high impact. -/
def highImpactOf (news : List NewsItem) : List NewsItem :=
  (news.take 50).filter fun n => n.impact == "High"

/-- The long-BTC idea of lines 269-280, parameterised by the bullish and
bearish high-impact counts that decide its conviction. -/
def longBtcIdea (nBull nBear : Nat) : TradeIdea :=
  { id := "long-btc"
    tag := "LONG BTC PERP"
    category := "Directional"
    edge := "+1.6%"
    conviction := if nBull > nBear then "High" else "Medium"
    title := "Align with macro bull impulse"
    summary := "Macro environment shows bullish pressure with supportive high-impact headlines. AI models lean long BTC."
    horizon := "4–12h"
    risk := "Stop below local lows. Reduce size if volatility flips into High Stress." }

/-- The short-BTC idea of lines 282-293. -/
def shortBtcIdea (nBull nBear : Nat) : TradeIdea :=
  { id := "short-btc"
    tag := "SHORT BTC PERP"
    category := "Directional"
    edge := "+1.9%"
    conviction := if nBear ≥ nBull then "High" else "Medium"
    title := "Fade macro downside pressure"
    summary := "Bearish macro trend confirmed by high-impact negative news. AI models favour shorting BTC on bounces."
    horizon := "4–10h"
    risk := "Avoid chasing lows. Stop above local highs." }

/-- Rule 1 of the engine (lines 267-294): a directional idea when the trend
label contains "Bull" or "Bear" (substring test, as `includes` does). -/
def directionalIdeas (ms : MacroSnapshot) (news : List NewsItem) : List TradeIdea :=
  let hi := highImpactOf news
  let nBull := (hi.filter fun n => n.sentiment == "Bullish").length
  let nBear := (hi.filter fun n => n.sentiment == "Bearish").length
  if strIncludes ms.trendLabel "Bull" then [longBtcIdea nBull nBear]
  else if strIncludes ms.trendLabel "Bear" then [shortBtcIdea nBull nBear]
  else []

/-- The relative-value idea of lines 301-312. -/
def ethAltIdea : TradeIdea :=
  { id := "eth-alt"
    tag := "PAIRS TRADE"
    category := "Relative Value"
    edge := "+1.2%"
    conviction := "Medium"
    title := "Long ETH vs altcoin hype basket"
    summary := "AI detects heavy altcoin narrative rotations while ETH remains liquidity anchor. Long ETH / short small alt basket."
    horizon := "1–3d"
    risk := "Avoid overweighting single-name shorts. Maintain diversified hedge." }

/-- Rule 2 of the engine (lines 296-313): the pairs idea when any
high-impact item comes from one of the two media sources. -/
def rvIdeas (news : List NewsItem) : List TradeIdea :=
  let altFlow := (highImpactOf news).filter fun n =>
    n.source == "Cointelegraph" || n.source == "Coindesk"
  if altFlow.length > 0 then [ethAltIdea] else []

/-- The risk-management idea of lines 317-328. -/
def riskWatchIdea : TradeIdea :=
  { id := "risk-warning"
    tag := "RISK WATCH"
    category := "Risk Management"
    edge := "Protect PnL"
    conviction := "High"
    title := "Tighten exposure under stressed conditions"
    summary := "Volatility or liquidity stress detected by macro engine. Reduce exposure & tighten stops."
    horizon := "Current session"
    risk := "High risk of chop or liquidation cascades in thin conditions." }

/-- Rule 3 of the engine (lines 315-329): the risk warning under High
Stress volatility or Thinner liquidity. -/
def riskIdeas (ms : MacroSnapshot) : List TradeIdea :=
  if ms.volaLabel == "High Stress" || ms.liqLabel == "Thinner" then [riskWatchIdea] else []

/-- One narrative idea (lines 333-348), for the high-impact item `n` at
position `idx` of the slice; `edge` is the random draw for this position. -/
def narrativeIdea (edge : String) (idx : Nat) (n : NewsItem) : TradeIdea :=
  { id := "news-idea-" ++ Nat.repr idx
    tag := if n.sentiment == "Bullish" then "MOMO LONG"
      else if n.sentiment == "Bearish" then "MOMO SHORT" else "THEME IDEA"
    category := "Narrative"
    edge := edge
    conviction := if idx % 2 == 0 then "Medium" else "Low"
    title := "Play " ++ n.source ++ " narrative on " ++ n.sentiment ++ " flow"
    summary := String.mk (n.summary.data.take 120) ++ "..."
    horizon := "6–18h"
    risk := "News-driven trade. Tight stops recommended." }

/-- Rule 4 of the engine (lines 331-349): one narrative idea for each of
the first five high-impact items. -/
def narrativeIdeas (edgeOr : Nat → String) (news : List NewsItem) : List TradeIdea :=
  ((highImpactOf news).take 5).enum.map fun q => narrativeIdea (edgeOr q.1) q.1 q.2

/-- The fallback idea of lines 352-365. -/
def noEdgeIdea : TradeIdea :=
  { id := "no-edge"
    tag := "NO STRONG EDGE"
    category := "Neutral"
    edge := "Flat"
    conviction := "Low"
    title := "No high-probability setups detected"
    summary := "Macro + news signals do not align. AI recommends waiting for clearer asymmetry."
    horizon := "Wait"
    risk := "Avoid forcing trades in low-edge environments." }

/-- The full engine (lines 256-368): the four rules emit in order, and the
fallback idea is pushed exactly when nothing else was. -/
def tradeIdeas (edgeOr : Nat → String) (ms : MacroSnapshot) (news : List NewsItem) :
    List TradeIdea :=
  let base := directionalIdeas ms news ++ rvIdeas news ++ riskIdeas ms ++
    narrativeIdeas edgeOr news
  if base.isEmpty then [noEdgeIdea] else base

/-- No idea produced by rules 1-4 is the fallback idea: their ids differ. -/
theorem noEdge_not_in_base (edgeOr : Nat → String) (ms : MacroSnapshot)
    (news : List NewsItem) :
    noEdgeIdea ∉ directionalIdeas ms news ++ rvIdeas news ++ riskIdeas ms ++
      narrativeIdeas edgeOr news := by
  intro hmem
  rcases List.mem_append.mp hmem with hmem | hnarr
  · rcases List.mem_append.mp hmem with hmem | hrisk
    · rcases List.mem_append.mp hmem with hdir | hrv
      · simp only [directionalIdeas] at hdir
        split at hdir
        · simp only [List.mem_singleton] at hdir
          exact absurd (congrArg TradeIdea.id hdir) (by simp [noEdgeIdea, longBtcIdea])
        · split at hdir
          · simp only [List.mem_singleton] at hdir
            exact absurd (congrArg TradeIdea.id hdir) (by simp [noEdgeIdea, shortBtcIdea])
          · simp at hdir
      · simp only [rvIdeas] at hrv
        split at hrv
        · simp only [List.mem_singleton] at hrv
          exact absurd (congrArg TradeIdea.id hrv) (by simp [noEdgeIdea, ethAltIdea])
        · simp at hrv
    · simp only [riskIdeas] at hrisk
      split at hrisk
      · simp only [List.mem_singleton] at hrisk
        exact absurd (congrArg TradeIdea.id hrisk) (by simp [noEdgeIdea, riskWatchIdea])
      · simp at hrisk
  · simp only [narrativeIdeas] at hnarr
    rcases List.mem_map.mp hnarr with ⟨q, -, hq⟩
    have hid := congrArg TradeIdea.id hq
    simp only [narrativeIdea, noEdgeIdea] at hid
    have h2 := congrArg String.data hid
    rw [String.data_append] at h2
    simp at h2

/-- C5: for every macro snapshot and non-empty news list the engine yields
a non-empty idea list, and the fallback "no strong edge" idea appears in
the output exactly when the four substantive rules emitted nothing. -/
theorem tradeIdeas_nonempty_fallback_iff (edgeOr : Nat → String) (ms : MacroSnapshot)
    (news : List NewsItem) (hne : news ≠ []) :
    tradeIdeas edgeOr ms news ≠ [] ∧
      (noEdgeIdea ∈ tradeIdeas edgeOr ms news ↔
        directionalIdeas ms news ++ rvIdeas news ++ riskIdeas ms ++
          narrativeIdeas edgeOr news = []) := by
  have ht : tradeIdeas edgeOr ms news =
      if (directionalIdeas ms news ++ rvIdeas news ++ riskIdeas ms ++
          narrativeIdeas edgeOr news).isEmpty then [noEdgeIdea]
      else directionalIdeas ms news ++ rvIdeas news ++ riskIdeas ms ++
        narrativeIdeas edgeOr news := rfl
  rcases eq_or_ne (directionalIdeas ms news ++ rvIdeas news ++ riskIdeas ms ++
      narrativeIdeas edgeOr news) [] with hb | hb
  · rw [ht, hb]
    simp
  · rw [ht, if_neg (fun hc => hb (List.isEmpty_iff.mp hc))]
    refine ⟨hb, ?_, fun he => absurd he hb⟩
    intro hmem
    exact absurd hmem (noEdge_not_in_base edgeOr ms news)

/-- A quiet macro snapshot for the witnesses. -/
def sidewaysMacro : MacroSnapshot :=
  ⟨"Sideways", "", "Calm", "", "Normal", ""⟩

/-- A low-impact news item for the witnesses. -/
def quietItem : NewsItem :=
  ⟨"w1", "t", "OKX", "", "Low", "Neutral", "N/A", "General", "s", []⟩

/-- Witness for C5 at a concrete quiet input: the list is the fallback
idea alone and the equivalence holds. -/
theorem tradeIdeas_nonempty_fallback_iff_witness :
    tradeIdeas (fun _ => "1.0%") sidewaysMacro [quietItem] ≠ [] ∧
      (noEdgeIdea ∈ tradeIdeas (fun _ => "1.0%") sidewaysMacro [quietItem] ↔
        directionalIdeas sidewaysMacro [quietItem] ++ rvIdeas [quietItem] ++
          riskIdeas sidewaysMacro ++ narrativeIdeas (fun _ => "1.0%") [quietItem] = []) :=
  tradeIdeas_nonempty_fallback_iff (fun _ => "1.0%") sidewaysMacro [quietItem] (by simp)

/-- C10: structural bounds of the engine: at most one directional, one
relative-value and one risk idea, at most five narrative ideas, at most
eight ideas in total, and the fallback appears only when rules 1-4
produced nothing. -/
theorem tradeIdeas_bounds (edgeOr : Nat → String) (ms : MacroSnapshot)
    (news : List NewsItem) :
    (tradeIdeas edgeOr ms news).length ≤ 8 ∧
      (directionalIdeas ms news).length ≤ 1 ∧
      (rvIdeas news).length ≤ 1 ∧
      (riskIdeas ms).length ≤ 1 ∧
      (narrativeIdeas edgeOr news).length ≤ 5 ∧
      (noEdgeIdea ∈ tradeIdeas edgeOr ms news →
        directionalIdeas ms news ++ rvIdeas news ++ riskIdeas ms ++
          narrativeIdeas edgeOr news = []) := by
  have hdir : (directionalIdeas ms news).length ≤ 1 := by
    unfold directionalIdeas
    split
    · simp
    · split <;> simp
  have hrv : (rvIdeas news).length ≤ 1 := by
    simp only [rvIdeas]
    split <;> simp
  have hrisk : (riskIdeas ms).length ≤ 1 := by
    unfold riskIdeas
    split <;> simp
  have hnarr : (narrativeIdeas edgeOr news).length ≤ 5 := by
    unfold narrativeIdeas
    rw [List.length_map, List.enum_length]
    exact le_trans (List.length_take_le 5 _) (le_refl _)
  refine ⟨?_, hdir, hrv, hrisk, hnarr, ?_⟩
  · simp only [tradeIdeas]
    split
    · simp
    · simp only [List.length_append]
      omega
  · intro hmem
    simp only [tradeIdeas] at hmem
    split at hmem
    case isTrue hb => exact List.isEmpty_iff.mp hb
    case isFalse hb => exact absurd hmem (noEdge_not_in_base edgeOr ms news)

/-- Witness for C10 at a concrete quiet input, including the fallback
implication with its antecedent discharged. -/
theorem tradeIdeas_bounds_witness :
    (tradeIdeas (fun _ => "1.0%") sidewaysMacro [quietItem]).length ≤ 8 ∧
      (directionalIdeas sidewaysMacro [quietItem] ++ rvIdeas [quietItem] ++
        riskIdeas sidewaysMacro ++ narrativeIdeas (fun _ => "1.0%") [quietItem] = []) :=
  ⟨(tradeIdeas_bounds (fun _ => "1.0%") sidewaysMacro [quietItem]).1,
   (tradeIdeas_bounds (fun _ => "1.0%") sidewaysMacro [quietItem]).2.2.2.2.2 (by decide)⟩

/-! ### C7: what survives `cleanSummary`

The spec claims the output has no `<`/`>` characters and no URL substring.
A stray `<` that never forms a complete tag survives (counterexample
below); what does hold is that no substring matching the tag regex
`<[^>]+>` and no substring matching `https?:\/\/\S` remains.  The two
scanners below decide those two properties. -/

/-- Does the tag regex `<[^>]+>` match at some position of the list? -/
def hasTagB : List Char → Bool
  | [] => false
  | c :: t => (c = '<' && (dropTag t).isSome) || hasTagB t

/-- Does the URL regex `https?:\/\/\S+` match at some position of the list? -/
def hasUrlB : List Char → Bool
  | [] => false
  | c :: t => (urlAt (c :: t)).isSome || hasUrlB t

/-- Strong induction on list length. -/
theorem listLengthInd {α : Type} {P : List α → Prop}
    (step : ∀ l, (∀ m : List α, m.length < l.length → P m) → P l) : ∀ l, P l := by
  have H : ∀ n, ∀ l : List α, l.length ≤ n → P l := by
    intro n
    induction n with
    | zero =>
      intro l hl
      exact step l fun m hm => absurd (Nat.lt_of_lt_of_le hm hl) (Nat.not_lt_zero _)
    | succ n ih =>
      intro l hl
      exact step l fun m hm => ih m (Nat.le_of_lt_succ (Nat.lt_of_lt_of_le hm hl))
  exact fun l => H l.length l (le_refl _)

theorem skipToGt_eq_none (l : List Char) : skipToGt l = none ↔ '>' ∉ l := by
  induction l with
  | nil => simp [skipToGt]
  | cons c t ih =>
    by_cases hc : c = '>'
    · subst hc; simp [skipToGt]
    · simp [skipToGt, hc, ih, Ne.symm hc]

theorem dropTag_none_cases {l : List Char} (h : dropTag l = none) :
    l = [] ∨ (∃ t, l = '>' :: t) ∨ '>' ∉ l := by
  cases l with
  | nil => exact Or.inl rfl
  | cons c t =>
    by_cases hc : c = '>'
    · exact Or.inr (Or.inl ⟨t, by rw [hc]⟩)
    · simp only [dropTag, if_neg hc] at h
      refine Or.inr (Or.inr ?_)
      simp [hc, Ne.symm hc, (skipToGt_eq_none t).mp h]

theorem dropTag_none_of_not_mem {l : List Char} (h : '>' ∉ l) :
    dropTag l = none := by
  cases l with
  | nil => rfl
  | cons c t =>
    simp only [List.mem_cons, not_or] at h
    simp [dropTag, Ne.symm h.1, (skipToGt_eq_none t).mpr h.2]

theorem dropTag_none_gt (t : List Char) : dropTag ('>' :: t) = none := by
  simp [dropTag]

theorem skipToGt_suffix {l r : List Char} (h : skipToGt l = some r) : r <:+ l := by
  induction l with
  | nil => simp [skipToGt] at h
  | cons c t ih =>
    simp only [skipToGt] at h
    split at h
    · cases h; exact List.suffix_cons _ _
    · exact (ih h).trans (List.suffix_cons c t)

theorem dropTag_suffix {l r : List Char} (h : dropTag l = some r) : r <:+ l := by
  cases l with
  | nil => simp [dropTag] at h
  | cons c t =>
    simp only [dropTag] at h
    split at h
    · cases h
    · exact (skipToGt_suffix h).trans (List.suffix_cons c t)

/-- Equation: a tag match is erased. -/
theorem stripTags_cons_tag {t r : List Char} (h : dropTag t = some r) :
    stripTags ('<' :: t) = stripTags r := by
  rw [stripTags, h]
  simp

/-- Equation: a position with no tag match keeps its character. -/
theorem stripTags_cons_keep {c : Char} {t : List Char} (h : c = '<' → dropTag t = none) :
    stripTags (c :: t) = c :: stripTags t := by
  by_cases hc : c = '<'
  · subst hc
    rw [stripTags, h rfl]
  · rw [stripTags]
    cases hdt : dropTag t <;> simp [hc]

theorem stripTags_nil : stripTags [] = [] := by rw [stripTags]

/-- The tag stripper only deletes characters. -/
theorem stripTags_sublist : ∀ l : List Char, List.Sublist (stripTags l) l := by
  refine listLengthInd fun l ih => ?_
  cases l with
  | nil => rw [stripTags_nil]
  | cons c t =>
    by_cases hc : c = '<'
    · subst hc
      cases hdt : dropTag t with
      | some r =>
        rw [stripTags_cons_tag hdt]
        have h1 : r.length < t.length := dropTag_length hdt
        exact ((ih r (by simp; omega)).trans (dropTag_suffix hdt).sublist).trans
          (List.sublist_cons_self '<' t)
      | none =>
        rw [stripTags_cons_keep fun _ => hdt]
        exact (ih t (by simp)).cons₂ '<'
    · rw [stripTags_cons_keep fun hcc => absurd hcc hc]
      exact (ih t (by simp)).cons₂ c

theorem skipToGt_append {t r : List Char} (b : List Char) (h : skipToGt t = some r) :
    skipToGt (t ++ b) = some (r ++ b) := by
  induction t with
  | nil => simp [skipToGt] at h
  | cons c t' ih =>
    simp only [skipToGt] at h
    split at h
    case isTrue hc =>
      cases h
      simp [skipToGt, if_pos hc]
    case isFalse hc =>
      simp only [List.cons_append, skipToGt, if_neg hc]
      exact ih h

theorem dropTag_append_isSome {t : List Char} (b : List Char)
    (h : (dropTag t).isSome = true) : (dropTag (t ++ b)).isSome = true := by
  cases t with
  | nil => simp [dropTag] at h
  | cons c t' =>
    rw [List.cons_append]
    simp only [dropTag] at h ⊢
    split at h
    · simp at h
    case isFalse hc =>
      rw [if_neg hc]
      cases hs : skipToGt t' with
      | none => rw [hs] at h; simp at h
      | some r => rw [skipToGt_append b hs]; rfl

theorem hasTagB_append_left {p : List Char} (b : List Char) (h : hasTagB p = true) :
    hasTagB (p ++ b) = true := by
  induction p with
  | nil => simp [hasTagB] at h
  | cons c t ih =>
    simp only [hasTagB, Bool.or_eq_true] at h ⊢
    rcases h with h | h
    · left
      have h1 : c = '<' ∧ (dropTag t).isSome = true := by simpa using h
      simp [h1.1, dropTag_append_isSome b h1.2]
    · exact Or.inr (ih h)

theorem hasTagB_suffix {s l : List Char} (hs : s <:+ l) (h : hasTagB s = true) :
    hasTagB l = true := by
  obtain ⟨a, rfl⟩ := hs
  induction a with
  | nil => exact h
  | cons x a' ih =>
    simp only [List.cons_append, hasTagB, Bool.or_eq_true]
    exact Or.inr ih

theorem hasTagB_false_of_suffix {s l : List Char} (h : hasTagB l = false)
    (hs : s <:+ l) : hasTagB s = false := by
  cases hst : hasTagB s with
  | false => rfl
  | true => exact absurd (hasTagB_suffix hs hst) (by simp [h])

theorem hasTagB_false_of_front {p l : List Char} (h : hasTagB l = false)
    (hp : p <+: l) : hasTagB p = false := by
  obtain ⟨b, rfl⟩ := hp
  cases hst : hasTagB p with
  | false => rfl
  | true => exact absurd (hasTagB_append_left b hst) (by simp [h])

/-- Erasing every tag leaves a list in which the tag regex matches nowhere. -/
theorem hasTagB_stripTags : ∀ l : List Char, hasTagB (stripTags l) = false := by
  refine listLengthInd fun l ih => ?_
  cases l with
  | nil => rw [stripTags_nil]; rfl
  | cons c t =>
    by_cases hc : c = '<'
    · subst hc
      cases hdt : dropTag t with
      | some r =>
        rw [stripTags_cons_tag hdt]
        exact ih r (Nat.lt_trans (dropTag_length hdt) (by simp))
      | none =>
        rw [stripTags_cons_keep fun _ => hdt]
        have h2 : dropTag (stripTags t) = none := by
          rcases dropTag_none_cases hdt with rfl | ⟨t', rfl⟩ | hmem
          · rw [stripTags_nil]; rfl
          · rw [stripTags_cons_keep fun hgt => absurd hgt (by decide)]
            exact dropTag_none_gt _
          · exact dropTag_none_of_not_mem fun hm => hmem ((stripTags_sublist t).mem hm)
        simp [hasTagB, h2, ih t (by simp)]
    · rw [stripTags_cons_keep fun hcc => absurd hcc hc]
      simp [hasTagB, hc, ih t (by simp)]

theorem schemeSplit_https (X : List Char) : schemeSplit (httpsL ++ X) = some X := by
  unfold schemeSplit
  rw [if_pos (isPrefixOf_eq.mpr ⟨X, rfl⟩)]
  simp [httpsL]

theorem schemeSplit_http (X : List Char) : schemeSplit (httpL ++ X) = some X := by
  unfold schemeSplit
  rw [if_neg, if_pos (isPrefixOf_eq.mpr ⟨X, rfl⟩)]
  · simp [httpL]
  · intro hcon
    obtain ⟨Y, hY⟩ := isPrefixOf_eq.mp hcon
    simp [httpL, httpsL] at hY

theorem urlAt_isSome_of {l : List Char} {d : Char} {u : List Char}
    (h : schemeSplit l = some (d :: u)) (hd : isWs d = false) :
    (urlAt l).isSome = true := by
  unfold urlAt
  rw [h]
  simp [hd]

theorem urlAt_head {c : Char} {t r : List Char} (h : urlAt (c :: t) = some r) :
    c = 'h' := by
  obtain ⟨d, u, hs, -, -⟩ := urlAt_some_elim h
  rcases schemeSplit_eq hs with he | he <;> simp [httpsL, httpL] at he <;>
    exact he.1

theorem urlAt_append {p r : List Char} (b : List Char) (h : urlAt p = some r) :
    (urlAt (p ++ b)).isSome = true := by
  obtain ⟨d, u, hs, hd, -⟩ := urlAt_some_elim h
  rcases schemeSplit_eq hs with he | he <;> subst he
  · have he2 : (httpsL ++ d :: u) ++ b = httpsL ++ (d :: (u ++ b)) := by simp
    rw [he2]
    exact urlAt_isSome_of (schemeSplit_https _) hd
  · have he2 : (httpL ++ d :: u) ++ b = httpL ++ (d :: (u ++ b)) := by simp
    rw [he2]
    exact urlAt_isSome_of (schemeSplit_http _) hd

theorem hasUrlB_append_left {p : List Char} (b : List Char) (h : hasUrlB p = true) :
    hasUrlB (p ++ b) = true := by
  induction p with
  | nil => simp [hasUrlB] at h
  | cons c t ih =>
    simp only [hasUrlB, Bool.or_eq_true] at h ⊢
    rcases h with h | h
    · rcases Option.isSome_iff_exists.mp h with ⟨r, hr⟩
      exact Or.inl (by simpa using urlAt_append b hr)
    · exact Or.inr (ih h)

theorem hasUrlB_suffix {s l : List Char} (hs : s <:+ l) (h : hasUrlB s = true) :
    hasUrlB l = true := by
  obtain ⟨a, rfl⟩ := hs
  induction a with
  | nil => exact h
  | cons x a' ih =>
    simp only [List.cons_append, hasUrlB, Bool.or_eq_true]
    exact Or.inr ih

theorem hasUrlB_false_of_suffix {s l : List Char} (h : hasUrlB l = false)
    (hs : s <:+ l) : hasUrlB s = false := by
  cases hst : hasUrlB s with
  | false => rfl
  | true => exact absurd (hasUrlB_suffix hs hst) (by simp [h])

theorem hasUrlB_false_of_front {p l : List Char} (h : hasUrlB l = false)
    (hp : p <+: l) : hasUrlB p = false := by
  obtain ⟨b, rfl⟩ := hp
  cases hst : hasUrlB p with
  | false => rfl
  | true => exact absurd (hasUrlB_append_left b hst) (by simp [h])

theorem stripUrls_nil : stripUrls [] = [] := by rw [stripUrls]

theorem stripUrls_cons_url {c : Char} {t r : List Char} (h : urlAt (c :: t) = some r) :
    stripUrls (c :: t) = stripUrls r := by
  rw [stripUrls, h]

theorem stripUrls_cons_keep {c : Char} {t : List Char} (h : urlAt (c :: t) = none) :
    stripUrls (c :: t) = c :: stripUrls t := by
  rw [stripUrls, h]

theorem stripUrls_cons_ne_h {c : Char} {t : List Char} (h : ¬ c = 'h') :
    stripUrls (c :: t) = c :: stripUrls t := by
  cases hu : urlAt (c :: t) with
  | some r => exact absurd (urlAt_head hu) h
  | none => exact stripUrls_cons_keep hu

theorem urlAt_suffix {l r : List Char} (h : urlAt l = some r) : r <:+ l := by
  obtain ⟨d, u, hs, -, rfl⟩ := urlAt_some_elim h
  have h1 : (d :: u).dropWhile (fun x => !isWs x) <:+ d :: u := List.dropWhile_suffix _
  rcases schemeSplit_eq hs with he | he <;> subst he <;>
    exact h1.trans (List.suffix_append _ _)

/-- The URL stripper only deletes characters. -/
theorem stripUrls_sublist : ∀ l : List Char, List.Sublist (stripUrls l) l := by
  refine listLengthInd fun l ih => ?_
  cases l with
  | nil => rw [stripUrls_nil]
  | cons c t =>
    cases hu : urlAt (c :: t) with
    | some r =>
      rw [stripUrls_cons_url hu]
      exact (ih r (urlAt_length hu)).trans (urlAt_suffix hu).sublist
    | none =>
      rw [stripUrls_cons_keep hu]
      exact (ih t (by simp)).cons₂ c

/-- Stripping URLs cannot create a tag match. -/
theorem hasTagB_stripUrls : ∀ l : List Char, hasTagB l = false →
    hasTagB (stripUrls l) = false := by
  refine listLengthInd fun l ih h => ?_
  cases l with
  | nil => rw [stripUrls_nil]; exact h
  | cons c t =>
    have hparts : (decide (c = '<') && (dropTag t).isSome) = false ∧ hasTagB t = false := by
      simpa [hasTagB] using h
    cases hu : urlAt (c :: t) with
    | some r =>
      rw [stripUrls_cons_url hu]
      exact ih r (urlAt_length hu) (hasTagB_false_of_suffix h (urlAt_suffix hu))
    | none =>
      rw [stripUrls_cons_keep hu]
      by_cases hc : c = '<'
      · subst hc
        have hdt : dropTag t = none := by
          cases hd : dropTag t with
          | none => rfl
          | some r =>
            exfalso
            have h1 := hparts.1
            rw [hd] at h1
            simp at h1
        have h2 : dropTag (stripUrls t) = none := by
          rcases dropTag_none_cases hdt with rfl | ⟨t', rfl⟩ | hmem
          · rw [stripUrls_nil]; rfl
          · rw [stripUrls_cons_ne_h (by decide)]
            exact dropTag_none_gt _
          · exact dropTag_none_of_not_mem fun hm => hmem ((stripUrls_sublist t).mem hm)
        simp [hasTagB, h2, ih t (by simp) hparts.2]
      · simp [hasTagB, hc, ih t (by simp) hparts.2]

theorem dropWhile_shape (p : Char → Bool) (X : List Char) :
    X.dropWhile p = [] ∨ ∃ w z, X.dropWhile p = w :: z ∧ p w = false := by
  induction X with
  | nil => exact Or.inl rfl
  | cons c t ih =>
    by_cases hp : p c
    · simpa [List.dropWhile, hp] using ih
    · exact Or.inr ⟨c, t, by simp [List.dropWhile, hp], by simp [hp]⟩

theorem prefix_append_cases {P a b : List Char} (h : P <+: a ++ b) :
    P <+: a ∨ ∃ Q, P = a ++ Q ∧ Q <+: b := by
  induction a generalizing P with
  | nil => exact Or.inr ⟨P, by simp, by simpa using h⟩
  | cons x a' ih =>
    cases P with
    | nil => exact Or.inl nilPrefixOf
    | cons y P' =>
      rw [List.cons_append] at h
      obtain ⟨hyx, hP'⟩ := List.cons_prefix_cons.mp h
      rcases ih hP' with hPa | ⟨Q, hPQ, hQ⟩
      · exact Or.inl (List.cons_prefix_cons.mpr ⟨hyx, hPa⟩)
      · exact Or.inr ⟨Q, by rw [hyx, hPQ, List.cons_append], hQ⟩

/-- Every erasure performed by `stripUrls` is followed in the output by a
whitespace character or the end of the list: the output is the whole
input, or a prefix of it, or a prefix of it followed by whitespace. -/
theorem stripUrls_shape : ∀ t : List Char, stripUrls t = t ∨
    (∃ a, a <+: t ∧ stripUrls t = a) ∨
    (∃ a w z, a <+: t ∧ isWs w = true ∧ stripUrls t = a ++ w :: z) := by
  refine listLengthInd fun l ih => ?_
  cases l with
  | nil => exact Or.inl stripUrls_nil
  | cons c t =>
    cases hu : urlAt (c :: t) with
    | some r =>
      obtain ⟨d, u, -, -, hr⟩ := urlAt_some_elim hu
      rcases dropWhile_shape (fun x => !isWs x) (d :: u) with hsh | ⟨w, z, hsh, hw⟩
      · refine Or.inr (Or.inl ⟨[], nilPrefixOf, ?_⟩)
        rw [stripUrls_cons_url hu, hr, hsh, stripUrls_nil]
      · have hws : isWs w = true := by simpa using hw
        have hwh : ¬ w = 'h' := fun hcon => by rw [hcon] at hws; exact absurd hws (by decide)
        refine Or.inr (Or.inr ⟨[], w, stripUrls z, nilPrefixOf, hws, ?_⟩)
        rw [stripUrls_cons_url hu, hr, hsh, stripUrls_cons_ne_h hwh, List.nil_append]
    | none =>
      rw [stripUrls_cons_keep hu]
      rcases ih t (by simp) with hsh | ⟨a, hap, ha⟩ | ⟨a, w, z, hap, hws, heq⟩
      · exact Or.inl (by rw [hsh])
      · exact Or.inr (Or.inl ⟨c :: a, List.cons_prefix_cons.mpr ⟨rfl, hap⟩, by rw [ha]⟩)
      · exact Or.inr (Or.inr ⟨c :: a, w, z, List.cons_prefix_cons.mpr ⟨rfl, hap⟩, hws,
          by rw [heq, List.cons_append]⟩)

/-- A fully non-whitespace prefix of the output of `stripUrls` was already
a prefix of its input. -/
theorem nonws_prefix_stripUrls {P : List Char} (hnw : ∀ x ∈ P, isWs x = false)
    {t : List Char} (hP : P <+: stripUrls t) : P <+: t := by
  rcases stripUrls_shape t with hsh | ⟨a, hap, ha⟩ | ⟨a, w, z, hap, hws, heq⟩
  · rwa [hsh] at hP
  · rw [ha] at hP
    exact hP.trans hap
  · rw [heq] at hP
    rcases prefix_append_cases hP with hPa | ⟨Q, hPQ, hQ⟩
    · exact hPa.trans hap
    · cases Q with
      | nil =>
        rw [List.append_nil] at hPQ
        exact hPQ ▸ hap
      | cons q0 Q' =>
        exfalso
        have hq0 : q0 = w := (List.cons_prefix_cons.mp hQ).1
        have hwP : w ∈ P := by
          rw [hPQ, hq0]
          exact List.mem_append_right _ (List.mem_cons_self w Q')
        exact absurd (hnw w hwP) (by simp [hws])

/-- Erasing every URL match leaves a list in which the URL regex matches
nowhere: every erasure ends at whitespace or the end of the input, and any
fresh match would have had to be a match in the input already. -/
theorem hasUrlB_stripUrls : ∀ l : List Char, hasUrlB (stripUrls l) = false := by
  refine listLengthInd fun l ih => ?_
  cases l with
  | nil => rw [stripUrls_nil]; rfl
  | cons c t =>
    cases hu : urlAt (c :: t) with
    | some r =>
      rw [stripUrls_cons_url hu]
      exact ih r (urlAt_length hu)
    | none =>
      rw [stripUrls_cons_keep hu]
      have hnone : urlAt (c :: stripUrls t) = none := by
        cases hu2 : urlAt (c :: stripUrls t) with
        | none => rfl
        | some r2 =>
          exfalso
          obtain ⟨d, u, hs2, hd, -⟩ := urlAt_some_elim hu2
          have hnwd : ∀ S : List Char, (∀ x ∈ S, isWs x = false) →
              c :: stripUrls t = (c :: S) ++ d :: u →
              (∀ u2 : List Char, schemeSplit ((c :: S) ++ (d :: u2)) = some (d :: u2)) →
              False := by
            intro S hSnw he hscheme
            rw [List.cons_append, List.cons.injEq] at he
            obtain ⟨-, hst⟩ := he
            have hP : (S ++ [d]) <+: stripUrls t :=
              ⟨u, by rw [hst, List.append_assoc, List.singleton_append]⟩
            have hnw : ∀ x ∈ S ++ [d], isWs x = false := by
              intro x hx
              rcases List.mem_append.mp hx with hx | hx
              · exact hSnw x hx
              · simp only [List.mem_singleton] at hx
                exact hx ▸ hd
            obtain ⟨u2, hu2t⟩ := nonws_prefix_stripUrls hnw hP
            have hct : c :: t = (c :: S) ++ (d :: u2) := by
              rw [List.cons_append, List.cons.injEq]
              exact ⟨rfl, by rw [← hu2t, List.append_assoc, List.singleton_append]⟩
            have hsome : (urlAt (c :: t)).isSome = true := by
              rw [hct]
              exact urlAt_isSome_of (hscheme u2) hd
            rw [hu] at hsome
            exact absurd hsome (by simp)
          have hch : c = 'h' := urlAt_head hu2
          subst hch
          rcases schemeSplit_eq hs2 with he | he
          · exact hnwd ['t', 't', 'p', 's', ':', '/', '/'] (by decide) he
              (fun u2 => schemeSplit_https (d :: u2))
          · exact hnwd ['t', 't', 'p', ':', '/', '/'] (by decide) he
              (fun u2 => schemeSplit_http (d :: u2))
      simp [hasUrlB, hnone, ih t (by simp)]

theorem collapseWs_nil : collapseWs [] = [] := by rw [collapseWs]

theorem collapseWs_cons_ws {c : Char} {t : List Char} (h : isWs c = true) :
    collapseWs (c :: t) = ' ' :: collapseWs (t.dropWhile isWs) := by
  rw [collapseWs]
  simp [h]

theorem collapseWs_cons_nws {c : Char} {t : List Char} (h : isWs c = false) :
    collapseWs (c :: t) = c :: collapseWs t := by
  rw [collapseWs]
  simp [h]

theorem hasTagB_cons_false {c : Char} {t : List Char} (h : hasTagB (c :: t) = false) :
    hasTagB t = false := by
  rw [hasTagB] at h
  exact (Bool.or_eq_false_iff.mp h).2

theorem hasTagB_cons_lt {t : List Char} (h : hasTagB ('<' :: t) = false) :
    dropTag t = none := by
  cases hd : dropTag t with
  | none => rfl
  | some r =>
    rw [hasTagB, hd] at h
    simp at h

theorem hasUrlB_cons_false {c : Char} {t : List Char} (h : hasUrlB (c :: t) = false) :
    hasUrlB t = false := by
  rw [hasUrlB] at h
  exact (Bool.or_eq_false_iff.mp h).2

theorem hasUrlB_cons_none {c : Char} {t : List Char} (h : hasUrlB (c :: t) = false) :
    urlAt (c :: t) = none := by
  cases hu : urlAt (c :: t) with
  | none => rfl
  | some r =>
    rw [hasUrlB, hu] at h
    simp at h

/-- Characters of the collapsed list come from the input, except the
spaces standing for whitespace runs. -/
theorem mem_collapseWs : ∀ l : List Char, ∀ x, x ∈ collapseWs l → x ∈ l ∨ x = ' ' := by
  refine listLengthInd (P := fun l => ∀ x, x ∈ collapseWs l → x ∈ l ∨ x = ' ')
    fun l ih x hx => ?_
  cases l with
  | nil =>
    rw [collapseWs_nil] at hx
    simp at hx
  | cons c t =>
    by_cases hws : isWs c
    · rw [collapseWs_cons_ws hws] at hx
      rcases List.mem_cons.mp hx with rfl | hx2
      · exact Or.inr rfl
      · rcases ih (t.dropWhile isWs)
          (Nat.lt_succ_of_le (dropWhile_length_le isWs t)) x hx2 with hmem | hsp
        · exact Or.inl (List.mem_cons_of_mem c ((List.dropWhile_suffix isWs).sublist.mem hmem))
        · exact Or.inr hsp
    · rw [collapseWs_cons_nws (by simpa using hws)] at hx
      rcases List.mem_cons.mp hx with rfl | hx2
      · exact Or.inl (List.mem_cons_self x t)
      · rcases ih t (by simp) x hx2 with hmem | hsp
        · exact Or.inl (List.mem_cons_of_mem c hmem)
        · exact Or.inr hsp

/-- A fully non-whitespace prefix of the collapsed list was already a
prefix of the input. -/
theorem nonws_prefix_collapseWs : ∀ P : List Char, (∀ x ∈ P, isWs x = false) →
    ∀ t : List Char, P <+: collapseWs t → P <+: t := by
  intro P
  induction P with
  | nil =>
    intro _ t _
    exact nilPrefixOf
  | cons x P' ih =>
    intro hnw t hP
    cases t with
    | nil =>
      rw [collapseWs_nil] at hP
      have := hP.length_le
      simp at this
    | cons c t' =>
      by_cases hws : isWs c
      · rw [collapseWs_cons_ws hws] at hP
        obtain ⟨hx, -⟩ := List.cons_prefix_cons.mp hP
        exfalso
        have hxw := hnw x (List.mem_cons_self x P')
        rw [hx] at hxw
        exact absurd hxw (by decide)
      · rw [collapseWs_cons_nws (by simpa using hws)] at hP
        obtain ⟨hx, hP'⟩ := List.cons_prefix_cons.mp hP
        exact List.cons_prefix_cons.mpr
          ⟨hx, ih (fun y hy => hnw y (List.mem_cons_of_mem x hy)) t' hP'⟩

/-- Collapsing whitespace cannot create a tag match. -/
theorem hasTagB_collapseWs : ∀ l : List Char, hasTagB l = false →
    hasTagB (collapseWs l) = false := by
  refine listLengthInd fun l ih h => ?_
  cases l with
  | nil => rw [collapseWs_nil]; exact h
  | cons c t =>
    have ht := hasTagB_cons_false h
    by_cases hws : isWs c
    · rw [collapseWs_cons_ws hws]
      have hX := ih (t.dropWhile isWs) (Nat.lt_succ_of_le (dropWhile_length_le isWs t))
        (hasTagB_false_of_suffix ht (List.dropWhile_suffix isWs))
      simp [hasTagB, hX]
    · rw [collapseWs_cons_nws (by simpa using hws)]
      by_cases hc : c = '<'
      · subst hc
        have hdt : dropTag t = none := hasTagB_cons_lt h
        have h2 : dropTag (collapseWs t) = none := by
          rcases dropTag_none_cases hdt with rfl | ⟨t', rfl⟩ | hmem
          · rw [collapseWs_nil]; rfl
          · rw [collapseWs_cons_nws (by decide)]
            exact dropTag_none_gt _
          · refine dropTag_none_of_not_mem fun hm => ?_
            rcases mem_collapseWs t '>' hm with hmt | hsp
            · exact hmem hmt
            · exact absurd hsp (by decide)
        simp [hasTagB, h2, ih t (by simp) ht]
      · simp [hasTagB, hc, ih t (by simp) ht]

/-- Collapsing whitespace cannot create a URL match. -/
theorem hasUrlB_collapseWs : ∀ l : List Char, hasUrlB l = false →
    hasUrlB (collapseWs l) = false := by
  refine listLengthInd fun l ih h => ?_
  cases l with
  | nil => rw [collapseWs_nil]; exact h
  | cons c t =>
    have ht := hasUrlB_cons_false h
    have hurl := hasUrlB_cons_none h
    by_cases hws : isWs c
    · rw [collapseWs_cons_ws hws]
      have hX := ih (t.dropWhile isWs) (Nat.lt_succ_of_le (dropWhile_length_le isWs t))
        (hasUrlB_false_of_suffix ht (List.dropWhile_suffix isWs))
      have hsp : urlAt (' ' :: collapseWs (t.dropWhile isWs)) = none := by
        cases hu2 : urlAt (' ' :: collapseWs (t.dropWhile isWs)) with
        | none => rfl
        | some r2 => exact absurd (urlAt_head hu2) (by decide)
      simp [hasUrlB, hsp, hX]
    · rw [collapseWs_cons_nws (by simpa using hws)]
      have hfirst : urlAt (c :: collapseWs t) = none := by
        cases hu2 : urlAt (c :: collapseWs t) with
        | none => rfl
        | some r2 =>
          exfalso
          obtain ⟨d, u, hs2, hd, -⟩ := urlAt_some_elim hu2
          have hnwd : ∀ S : List Char, (∀ x ∈ S, isWs x = false) →
              c :: collapseWs t = (c :: S) ++ d :: u →
              (∀ u2 : List Char, schemeSplit ((c :: S) ++ (d :: u2)) = some (d :: u2)) →
              False := by
            intro S hSnw he hscheme
            rw [List.cons_append, List.cons.injEq] at he
            obtain ⟨-, hst⟩ := he
            have hP : (S ++ [d]) <+: collapseWs t :=
              ⟨u, by rw [hst, List.append_assoc, List.singleton_append]⟩
            have hnw : ∀ x ∈ S ++ [d], isWs x = false := by
              intro x hx
              rcases List.mem_append.mp hx with hx | hx
              · exact hSnw x hx
              · simp only [List.mem_singleton] at hx
                exact hx ▸ hd
            obtain ⟨u2, hu2t⟩ := nonws_prefix_collapseWs (S ++ [d]) hnw t hP
            have hct : c :: t = (c :: S) ++ (d :: u2) := by
              rw [List.cons_append, List.cons.injEq]
              exact ⟨rfl, by rw [← hu2t, List.append_assoc, List.singleton_append]⟩
            have hsome : (urlAt (c :: t)).isSome = true := by
              rw [hct]
              exact urlAt_isSome_of (hscheme u2) hd
            rw [hurl] at hsome
            exact absurd hsome (by simp)
          have hch : c = 'h' := urlAt_head hu2
          subst hch
          rcases schemeSplit_eq hs2 with he | he
          · exact hnwd ['t', 't', 'p', 's', ':', '/', '/'] (by decide) he
              (fun u2 => schemeSplit_https (d :: u2))
          · exact hnwd ['t', 't', 'p', ':', '/', '/'] (by decide) he
              (fun u2 => schemeSplit_http (d :: u2))
      simp [hasUrlB, hfirst, ih t (by simp) ht]

theorem reverse_suffix_flip {m x : List Char} (h : m <:+ x.reverse) :
    m.reverse <+: x := by
  obtain ⟨a, ha⟩ := h
  refine ⟨a.reverse, ?_⟩
  rw [← List.reverse_append, ha, List.reverse_reverse]

/-- Trimming keeps a contiguous middle piece, so it cannot create a tag
match. -/
theorem hasTagB_trimWs {l : List Char} (h : hasTagB l = false) :
    hasTagB (trimWs l) = false := by
  have h1 : hasTagB (l.dropWhile isWs) = false :=
    hasTagB_false_of_suffix h (List.dropWhile_suffix isWs)
  exact hasTagB_false_of_front h1
    (reverse_suffix_flip (List.dropWhile_suffix isWs))

/-- Trimming keeps a contiguous middle piece, so it cannot create a URL
match. -/
theorem hasUrlB_trimWs {l : List Char} (h : hasUrlB l = false) :
    hasUrlB (trimWs l) = false := by
  have h1 : hasUrlB (l.dropWhile isWs) = false :=
    hasUrlB_false_of_suffix h (List.dropWhile_suffix isWs)
  exact hasUrlB_false_of_front h1
    (reverse_suffix_flip (List.dropWhile_suffix isWs))

/-- C7 counterexample: the input "1 < 2" passes through `cleanSummary`
unchanged — the tag regex needs a closing `>`, so the stray `<` survives —
refuting the claim that the output never contains a `<` character. -/
theorem cleanSummary_keeps_stray_lt :
    cleanSummary "1 < 2" = "1 < 2" ∧ '<' ∈ "1 < 2".data := by
  constructor
  · simp [cleanSummary, stripTags, dropTag, skipToGt, stripUrls, urlAt, schemeSplit,
      httpsL, httpL, isWs, collapseWs, trimWs, List.dropWhile, noSummary]
  · decide

/-- C7 amended: for every input string, the output of `cleanSummary`
contains no substring matching the complete tag regex `<[^>]+>` and no
substring matching `https?:\/\/\S+`; stray angle brackets that never form
a complete tag may remain. -/
theorem cleanSummary_no_tag_no_url (s : String) :
    hasTagB (cleanSummary s).data = false ∧ hasUrlB (cleanSummary s).data = false := by
  have hfb : hasTagB noSummary.data = false ∧ hasUrlB noSummary.data = false := by
    constructor <;> decide
  by_cases hs : s = ""
  · have hcs : cleanSummary s = noSummary := by rw [cleanSummary, if_pos hs]
    rw [hcs]
    exact hfb
  · have hclean : cleanSummary s =
        if trimWs (collapseWs (stripUrls (stripTags s.data))) = [] then noSummary
        else String.mk (trimWs (collapseWs (stripUrls (stripTags s.data)))) := by
      rw [cleanSummary, if_neg hs]
    rw [hclean]
    by_cases ht : trimWs (collapseWs (stripUrls (stripTags s.data))) = []
    · rw [if_pos ht]
      exact hfb
    · rw [if_neg ht]
      have h1 : hasTagB (stripTags s.data) = false := hasTagB_stripTags _
      have h2 : hasTagB (stripUrls (stripTags s.data)) = false := hasTagB_stripUrls _ h1
      have h3 : hasTagB (collapseWs (stripUrls (stripTags s.data))) = false :=
        hasTagB_collapseWs _ h2
      have u1 : hasUrlB (stripUrls (stripTags s.data)) = false := hasUrlB_stripUrls _
      have u2 : hasUrlB (collapseWs (stripUrls (stripTags s.data))) = false :=
        hasUrlB_collapseWs _ u1
      exact ⟨hasTagB_trimWs h3, hasUrlB_trimWs u2⟩
